import Mathlib

/-!
# Verification of the mc-oblivious eviction layer

Shallow embedding of `mc-oblivious-ram/src/evictor.rs`: the deterministic and
random branch selectors, the Path ORAM greedy eviction strategy, and the
Circuit ORAM branch-preparation scans `prepare_deepest` / `prepare_target`,
together with the non-oblivious reference implementations from the test module.

Machine integers are embedded as `Nat`. All `usize`/`u64` values manipulated by
the eviction code are ordinary non-negative integers far below `2 ^ 64`, and the
constant-time comparison primitives (`ct_lt`, `ct_eq` on `u64` casts of `usize`
values, lossless on a 64-bit machine) are embedded as ordinary comparisons;
theorems carry explicit size hypotheses where a bound is material.

The sentinel `FLOOR_INDEX` is `usize::MAX`.

Functions of this repository that live outside the evictor source
(`meta_is_vacant`, `meta_leaf_num`, `BranchCheckout::lowest_height_legal_index_impl`,
`pack`, `ct_insert` from the `path_oram` module) are modelled from the
specification; each such definition carries a doc comment saying so.
-/

/-- Sentinel corresponding to the Circuit ORAM paper value ⊥: `usize::MAX`. -/
def FLOOR_INDEX : ℕ := 2 ^ 64 - 1

/-- Modelled from the spec: block metadata from the external `path_oram` module.
A block carries `\x7b block_id, destination_leaf \x7d`; vacancy is the
all-cleared state (destination leaf number zero), per the data model and the
`test_bucket_has_vacancy` test, which marks slots occupied by giving them a
nonzero leaf number. -/
structure BlockMeta where
  blockNum : ℕ
  leafNum : ℕ
  deriving DecidableEq, Repr

/-- Modelled from the spec: accessor `meta_leaf_num` of the external
`path_oram` module, reading the destination leaf field. -/
def meta_leaf_num (m : BlockMeta) : ℕ :=
  m.leafNum

/-- Modelled from the spec: predicate `meta_is_vacant` of the external
`path_oram` module. Vacancy is an explicit sentinel state: destination leaf
number zero. -/
def meta_is_vacant (m : BlockMeta) : Bool :=
  m.leafNum == 0

/-- The metadata of one bucket: `Z` slots of block metadata. -/
abbrev BucketMeta := List BlockMeta

/-- Fuelled binary digit counter; `fuel` bounds the recursion depth and any
`fuel ≥ n` is exact for input `n` because the input halves every step. -/
def bit_size_fuel : ℕ → ℕ → ℕ
  | 0, _ => 0
  | fuel + 1, n => if n = 0 then 0 else bit_size_fuel fuel (n / 2) + 1

/-- Number of binary digits of `n` (0 for 0). -/
def bit_size (n : ℕ) : ℕ :=
  bit_size_fuel n n

/-- Modelled from the spec: `BranchCheckout::lowest_height_legal_index_impl`
of the external `path_oram` module (not under src). Per the legal-placement
relation of the data model, a block with destination leaf `L` may occupy bucket
index `i` of the branch with leaf `B` exactly when bucket `i` lies on the common
root-to-divergence prefix of the two paths, i.e. when `i` is at least the bit
length of `L XOR B`; the lowest (deepest) legal index is that bit length. A
vacant slot (leaf 0) on a branch with a valid leaf yields the branch length,
one past the deepest bucket. -/
def lowest_height_legal_index_impl (dest_leaf branch_leaf : ℕ) (_meta_len : ℕ) : ℕ :=
  bit_size (Nat.xor dest_leaf branch_leaf)

/-- Obliviously look through the bucket to see if it has a vacancy: OR of the
vacancy flag over every slot (source `bucket_has_empty_slot`). -/
def bucket_has_empty_slot (bucket_meta : BucketMeta) : Bool :=
  bucket_meta.foldl (fun acc src_meta => acc || meta_is_vacant src_meta) false

/-- Running state of the `prepare_deepest` scan: `goal` is the lowest branch
index any element seen so far can go to, `src` is the level that element came
from. -/
structure DeepState where
  goal : ℕ
  src : ℕ
  deriving DecidableEq, Repr

/-- Source translation of `update_goal_and_deepest_for_a_single_bucket`. The
source writes `deepest_meta[bucket_num]` (still holding its initial
`FLOOR_INDEX`) by a cmov; since each index is written exactly once, the
function returns that entry alongside the updated running state. -/
def update_goal_and_deepest_for_a_single_bucket (leaf meta_len bucket_num : ℕ)
    (src_meta : List BlockMeta) (st : DeepState) : ℕ × DeepState :=
  let should_take_src_for_deepest : Bool := ! decide (bucket_num < st.goal)
  let entry : ℕ := if should_take_src_for_deepest then st.src else FLOOR_INDEX
  let st1 : DeepState := src_meta.foldl
    (fun s elem =>
      let elem_destination : ℕ := lowest_height_legal_index_impl elem.leafNum leaf meta_len
      let is_elem_deeper : Bool :=
        decide (elem_destination < s.goal) && decide (elem_destination < bucket_num)
          && ! meta_is_vacant elem
      { goal := if is_elem_deeper then elem_destination else s.goal
        src := if is_elem_deeper then bucket_num else s.src }) st
  (entry, st1)

/-- The `for bucket_num in (0..meta_len).rev()` loop of `prepare_deepest`:
countdown `k` means bucket indices `k-1, k-2, ..., 0` remain to be processed.
Entries are returned in increasing bucket-index order. -/
def deepest_loop (leaf meta_len : ℕ) (branch_meta : List BucketMeta) :
    ℕ → DeepState → List ℕ × DeepState
  | 0, st => ([], st)
  | k + 1, st =>
    let r := update_goal_and_deepest_for_a_single_bucket leaf meta_len k
      (branch_meta.getD k []) st
    let rest := deepest_loop leaf meta_len branch_meta k r.2
    (rest.1 ++ [r.1], rest.2)

/-- Source translation of `prepare_deepest`: root-to-leaf linear metadata scan.
The stash is processed first as virtual level `meta_len`; its committed entry
is the last element of the returned array. -/
def prepare_deepest (stash_meta : List BlockMeta) (branch_meta : List BucketMeta)
    (leaf : ℕ) : List ℕ :=
  let meta_len := branch_meta.length
  let r := update_goal_and_deepest_for_a_single_bucket leaf meta_len meta_len stash_meta
    ⟨FLOOR_INDEX, FLOOR_INDEX⟩
  let lr := deepest_loop leaf meta_len branch_meta meta_len r.2
  lr.1 ++ [r.1]

/-- Running state of the `prepare_target` scan. `target_acc` holds the entries
committed so far (index order; the source writes each `target_meta` index by a
cmov exactly once, at its own loop iteration), `dest` is the last vacancy found
and not yet filled, `src` the level feeding it. -/
structure TargetState where
  target_acc : List ℕ
  dest : ℕ
  src : ℕ
  deriving DecidableEq, Repr

/-- One iteration of the `prepare_target` branch loop (source order: commit the
target entry, floor out `dest`/`src`, recompute vacancy, adopt a future
target). -/
def target_step (deepest_meta : List ℕ) (bucket_num : ℕ) (bucket_meta : BucketMeta)
    (st : TargetState) : TargetState :=
  let should_set_target : Bool := bucket_num == st.src
  let entry : ℕ := if should_set_target then st.dest else FLOOR_INDEX
  let dest1 : ℕ := if should_set_target then FLOOR_INDEX else st.dest
  let src1 : ℕ := if should_set_target then FLOOR_INDEX else st.src
  let has_empty : Bool := bucket_has_empty_slot bucket_meta
  let is_there_a_vacancy : Bool := (dest1 == FLOOR_INDEX && has_empty) || should_set_target
  let is_this_a_future_target : Bool :=
    is_there_a_vacancy && ! (deepest_meta.getD bucket_num FLOOR_INDEX == FLOOR_INDEX)
  { target_acc := st.target_acc ++ [entry]
    dest := if is_this_a_future_target then bucket_num else dest1
    src := if is_this_a_future_target then deepest_meta.getD bucket_num FLOOR_INDEX else src1 }

/-- The `for bucket_num in 0..data_len` loop of `prepare_target`, leaf to
root; `i` is the index of the head bucket. -/
def target_loop (deepest_meta : List ℕ) :
    List BucketMeta → ℕ → TargetState → TargetState
  | [], _, st => st
  | b :: rest, i, st => target_loop deepest_meta rest (i + 1) (target_step deepest_meta i b st)

/-- Source translation of `prepare_target`: leaf-to-root linear metadata scan,
then the stash (virtual level `data_len`) is checked once more against the
final `src`/`dest`. -/
def prepare_target (deepest_meta : List ℕ) (branch_meta : List BucketMeta) : List ℕ :=
  let st := target_loop deepest_meta branch_meta 0 ⟨[], FLOOR_INDEX, FLOOR_INDEX⟩
  st.target_acc ++ [if branch_meta.length == st.src then st.dest else FLOOR_INDEX]

/-- Source translation of `deterministic_get_next_branch_to_evict` uses the
`u64::reverse_bits` intrinsic: full 64-bit reversal, accumulator form. -/
def reverse_bits_aux : ℕ → ℕ → ℕ → ℕ
  | 0, _, acc => acc
  | w + 1, t, acc => reverse_bits_aux w (t / 2) (acc * 2 + t % 2)

/-- The `u64::reverse_bits` intrinsic on the low 64 bits. -/
def reverse_bits_u64 (t : ℕ) : ℕ :=
  reverse_bits_aux 64 t 0

/-- Source translation of `deterministic_get_next_branch_to_evict`: reverse
lexicographic branch selection. Shifts and masks are the corresponding powers
of two on `Nat`. -/
def deterministic_get_next_branch_to_evict (num_bits_to_be_reversed : ℕ)
    (iteration : ℕ) : ℕ :=
  if num_bits_to_be_reversed = 0 then 1
  else
    let leaf_significant_index : ℕ := 2 ^ num_bits_to_be_reversed
    let test_position : ℕ :=
      reverse_bits_u64 iteration / 2 ^ (64 - num_bits_to_be_reversed) % leaf_significant_index
    leaf_significant_index + test_position

/-- Source translation of the `PathOramDeterministicEvictor` state. -/
structure PathOramDeterministicEvictor where
  number_of_additional_branches_to_evict : ℕ
  branches_evicted : ℕ
  tree_height : ℕ
  tree_breadth : ℕ
  deriving DecidableEq, Repr

/-- Source translation of `PathOramDeterministicEvictor::new`. The source
computes `tree_breadth` as `2u64 ^ (tree_height as u64)`; `^` on Rust integers
is bitwise exclusive or, embedded faithfully as `Nat.xor`. -/
def PathOramDeterministicEvictor.new (number_of_additional tree_height : ℕ) :
    PathOramDeterministicEvictor :=
  { number_of_additional_branches_to_evict := number_of_additional
    tree_height := tree_height
    tree_breadth := Nat.xor 2 tree_height
    branches_evicted := 0 }

/-- Source translation of the stateful
`PathOramDeterministicEvictor::get_next_branch_to_evict`: returns the selected
leaf together with the updated evictor. -/
def PathOramDeterministicEvictor.get_next_branch_to_evict
    (s : PathOramDeterministicEvictor) : ℕ × PathOramDeterministicEvictor :=
  let iteration := s.branches_evicted
  (deterministic_get_next_branch_to_evict s.tree_height iteration,
    { s with branches_evicted := (s.branches_evicted + 1) % s.tree_breadth })

/-- Source translation of `path_oram_eviction_strategy`. Modelled from the
spec: `pack` and `ct_insert` belong to the external `BranchCheckout`
(`path_oram` module, not under src) and are taken as opaque function
parameters; `ct_insert` receives the constant `Choice` flag (here `true`), one
stash slot and its metadata, and returns the updated branch and metadata. The
loop visits every stash slot unconditionally. -/
def path_oram_eviction_strategy {Branch Data : Type}
    (pack : Branch → Branch)
    (ct_insert : Bool → Branch → Data → BlockMeta → Branch × BlockMeta)
    (stash_data : List Data) (stash_meta : List BlockMeta)
    (branch : Branch) : Branch × List BlockMeta :=
  let branch1 := pack branch
  (List.zip stash_data stash_meta).foldl
    (fun acc p =>
      let r := ct_insert true acc.1 p.1 p.2
      (r.1, acc.2 ++ [r.2]))
    (branch1, ([] : List BlockMeta))

/-- Result record of the non-oblivious search (test module struct
`LowestHeightAndSource`). -/
structure LowestHeightAndSource where
  source_bucket : ℕ
  destination_bucket : ℕ
  deriving DecidableEq, Repr

/-- The `branch_meta.iter().enumerate().skip(test_level).rev()` loop of the
non-oblivious search: countdown `k` means bucket indices `k-1, ..., test_level`
remain to be processed. -/
def find_source_branch_loop (leaf meta_len test_level : ℕ) (branch_meta : List BucketMeta) :
    ℕ → LowestHeightAndSource → LowestHeightAndSource
  | 0, acc => acc
  | k + 1, acc =>
    if test_level ≤ k then
      let acc1 := (branch_meta.getD k []).foldl
        (fun a src_meta =>
          let elem_destination := lowest_height_legal_index_impl src_meta.leafNum leaf meta_len
          if elem_destination < a.destination_bucket then ⟨k, elem_destination⟩ else a) acc
      find_source_branch_loop leaf meta_len test_level branch_meta k acc1
    else acc

/-- Source translation of the test-module reference
`find_source_for_deepest_elem_in_stash_non_oblivious_for_testing`. -/
def find_source_for_deepest_elem_in_stash_non_oblivious_for_testing
    (stash_meta : List BlockMeta) (branch_meta : List BucketMeta)
    (leaf test_level : ℕ) : LowestHeightAndSource :=
  let meta_len := branch_meta.length
  let acc1 := stash_meta.foldl
    (fun a stash_elem =>
      let elem_destination := lowest_height_legal_index_impl stash_elem.leafNum leaf meta_len
      if elem_destination < a.destination_bucket then ⟨meta_len, elem_destination⟩ else a)
    ⟨FLOOR_INDEX, FLOOR_INDEX⟩
  find_source_branch_loop leaf meta_len test_level branch_meta meta_len acc1

/-- Source translation of the test-module reference
`prepare_deepest_non_oblivious_for_testing`; the caller-allocated output slice
becomes the returned list. -/
def prepare_deepest_non_oblivious_for_testing (stash_meta : List BlockMeta)
    (branch_meta : List BucketMeta) (leaf : ℕ) : List ℕ :=
  (List.range (branch_meta.length + 1)).map (fun i =>
    let deepest_test := find_source_for_deepest_elem_in_stash_non_oblivious_for_testing
      stash_meta branch_meta leaf (i + 1)
    if deepest_test.destination_bucket ≤ i ∧ i < deepest_test.source_bucket then
      deepest_test.source_bucket
    else FLOOR_INDEX)

/-- The `while i < branch_meta.len()` loop of the test-module reference
`prepare_target_nonoblivious_for_testing`. The source loop advances `i` by one
or jumps to `deepest_meta[i]`; `fuel` bounds the iteration count and is chosen
by the wrapper large enough for every terminating run evaluated here (on
`prepare_deepest` outputs each iteration strictly increases `i`). -/
def prepare_target_nonoblivious_loop (deepest_meta : List ℕ) (branch_meta : List BucketMeta) :
    ℕ → ℕ → Bool → List ℕ → List ℕ
  | 0, _, _, target_meta => target_meta
  | fuel + 1, i, has_vacancy, target_meta =>
    if i < branch_meta.length then
      let has_vacancy1 := has_vacancy || bucket_has_empty_slot (branch_meta.getD i [])
      if deepest_meta.getD i FLOOR_INDEX = FLOOR_INDEX then
        prepare_target_nonoblivious_loop deepest_meta branch_meta fuel (i + 1) false
          (target_meta.set i FLOOR_INDEX)
      else if has_vacancy1 then
        prepare_target_nonoblivious_loop deepest_meta branch_meta fuel
          (deepest_meta.getD i FLOOR_INDEX) has_vacancy1
          (target_meta.set (deepest_meta.getD i FLOOR_INDEX) i)
      else
        prepare_target_nonoblivious_loop deepest_meta branch_meta fuel (i + 1) has_vacancy1
          target_meta
    else target_meta

/-- Source translation of the test-module reference
`prepare_target_nonoblivious_for_testing`; the caller passes a slice
pre-filled with `FLOOR_INDEX`, modelled by the `List.replicate` initial
value. -/
def prepare_target_nonoblivious_for_testing (deepest_meta : List ℕ)
    (branch_meta : List BucketMeta) : List ℕ :=
  prepare_target_nonoblivious_loop deepest_meta branch_meta (2 * branch_meta.length + 4) 0 false
    (List.replicate (branch_meta.length + 1) FLOOR_INDEX)

/-- A vacant slot: all-cleared metadata. -/
def vacantMeta : BlockMeta := ⟨0, 0⟩

/-- Stash of the fixed-tree worked example: destination leaves 26, 23, 21, 21. -/
def fixedStash : List BlockMeta := [⟨0, 26⟩, ⟨1, 23⟩, ⟨2, 21⟩, ⟨3, 21⟩]

/-- Branch metadata of the fixed-tree worked example for leaf 16 (index 0 is
the leaf bucket, index 4 the root): contents 16:∅, 8:∅, 4:[19], 2:[18, 20],
1:[24, 27, 31, 30], with destination leaf equal to block number as in the
test. -/
def fixedBranch : List BucketMeta :=
  [ [vacantMeta, vacantMeta, vacantMeta, vacantMeta],
    [vacantMeta, vacantMeta, vacantMeta, vacantMeta],
    [⟨19, 19⟩, vacantMeta, vacantMeta, vacantMeta],
    [⟨18, 18⟩, ⟨20, 20⟩, vacantMeta, vacantMeta],
    [⟨24, 24⟩, ⟨27, 27⟩, ⟨31, 31⟩, ⟨30, 30⟩] ]

/-- A height-1 branch (leaf 2): the leaf bucket is all-vacant and the root
bucket holds one block destined for leaf 2. On this input the oblivious
`prepare_target` and its non-oblivious reference disagree. -/
def divergenceBranch : List BucketMeta :=
  [ [vacantMeta, vacantMeta, vacantMeta, vacantMeta],
    [⟨7, 2⟩, vacantMeta, vacantMeta, vacantMeta] ]

/-- Metadata of the level `b` of a branch-plus-stash configuration: the stash
is virtual level `branch_meta.length`, lower levels are branch buckets. -/
def level_metas (stash_meta : List BlockMeta) (branch_meta : List BucketMeta)
    (b : ℕ) : List BlockMeta :=
  if b = branch_meta.length then stash_meta else branch_meta.getD b []

/-- A block of level `b` that can legally live at or below level `i`: the
candidate relation of the `prepare_deepest` specification. -/
def deepest_candidate (stash_meta : List BlockMeta) (branch_meta : List BucketMeta)
    (leaf i b : ℕ) (blk : BlockMeta) : Prop :=
  i < b ∧ b ≤ branch_meta.length ∧ blk ∈ level_metas stash_meta branch_meta b ∧
    meta_is_vacant blk = false ∧
    lowest_height_legal_index_impl blk.leafNum leaf branch_meta.length ≤ i

/-- The relocation plan encoded by a target array: one move per non-sentinel
entry, from the entry index to the entry value. -/
def planned_moves (target_meta : List ℕ) : List (ℕ × ℕ) :=
  (List.range target_meta.length).filterMap (fun i =>
    if target_meta.getD i FLOOR_INDEX = FLOOR_INDEX then none
    else some (i, target_meta.getD i FLOOR_INDEX))

/-- Reversal of the low `w` bits of `m` into a `w`-bit value: bit `i` of `m`
moves to position `w - 1 - i`. Specification-side description of the reverse
lexicographic ordering. -/
def bit_reverse : ℕ → ℕ → ℕ
  | 0, _ => 0
  | w + 1, m => m % 2 * 2 ^ w + bit_reverse w (m / 2)

/-- Abstract view of one slot as seen by the `prepare_deepest` scan: the level
it sits at, the deepest legal destination of its block, and its vacancy
flag. -/
structure Cand where
  lvl : ℕ
  dst : ℕ
  vac : Bool
  deriving DecidableEq, Repr

/-- The candidate obtained from one block-metadata slot at level `bucket_num`
of a branch with the given leaf. -/
def to_cand (leaf meta_len bucket_num : ℕ) (e : BlockMeta) : Cand :=
  ⟨bucket_num, lowest_height_legal_index_impl e.leafNum leaf meta_len, meta_is_vacant e⟩

/-- The candidates of one level, in slot order. -/
def level_cands (leaf meta_len bucket_num : ℕ) (metas : List BlockMeta) : List Cand :=
  metas.map (to_cand leaf meta_len bucket_num)

/-- The effect of scanning one slot on the running `goal`/`src` state of
`prepare_deepest`, in propositional form. -/
def deep_step (st : DeepState) (c : Cand) : DeepState :=
  if c.dst < st.goal ∧ c.dst < c.lvl ∧ c.vac = false then ⟨c.dst, c.lvl⟩ else st

/-- The deepest-array entry committed at `bucket_num` from state `st`:
the running source whenever `bucket_num` is at or above the running goal. -/
def deep_entry (bucket_num : ℕ) (st : DeepState) : ℕ :=
  if bucket_num < st.goal then FLOOR_INDEX else st.src

/-- A candidate eligible to update the running state: non-vacant and destined
strictly below its own level. -/
def elig_cand (c : Cand) : Prop :=
  c.vac = false ∧ c.dst < c.lvl

/-- The candidates of branch levels `k - 1, k - 2, ..., j`, in the root-to-leaf
scan order of `prepare_deepest`. -/
def stream_seg (leaf meta_len : ℕ) (branch_meta : List BucketMeta) : ℕ → ℕ → List Cand
  | 0, _ => []
  | k + 1, j =>
    if j ≤ k then
      level_cands leaf meta_len k (branch_meta.getD k []) ++
        stream_seg leaf meta_len branch_meta k j
    else []

/-- Invariant of the `prepare_target` scan after the first `i` levels: the
committed entries each name a move strictly toward the leaf whose source level
is recorded back in `deepest`, and a pending `src`/`dest` pair, when present,
points from `deepest` at a vacancy strictly below the cursor. -/
def target_inv (deepest_meta : List ℕ) (i : ℕ) (st : TargetState) : Prop :=
  st.target_acc.length = i ∧
  (∀ k, st.target_acc.getD k FLOOR_INDEX ≠ FLOOR_INDEX →
    st.target_acc.getD k FLOOR_INDEX < k ∧
      deepest_meta.getD (st.target_acc.getD k FLOOR_INDEX) FLOOR_INDEX = k) ∧
  ((st.src = FLOOR_INDEX ∧ st.dest = FLOOR_INDEX) ∨
    (st.dest < i ∧ st.src = deepest_meta.getD st.dest FLOOR_INDEX ∧ st.src ≠ FLOOR_INDEX))

/-- C1: the claim expects `PathOramDeterministicEvictor::new(_, 3)` to return
8, 12, 10, 14, 9, 13, 11, 15 over the first eight calls. The code computes
`tree_breadth` with bitwise exclusive or (`2u64 ^ 3 = 1`), so
`branches_evicted` is always reduced modulo 1 and stays 0: the first call
returns 8 and the second call also returns 8 instead of the expected 12. -/
theorem deterministic_evictor_stuck_at_first_leaf :
    (PathOramDeterministicEvictor.new 0 3).tree_breadth = 1 ∧
    (PathOramDeterministicEvictor.new 0 3).get_next_branch_to_evict.1 = 8 ∧
    (PathOramDeterministicEvictor.new
        0 3).get_next_branch_to_evict.2.get_next_branch_to_evict.1 = 8 ∧
    (PathOramDeterministicEvictor.new
        0 3).get_next_branch_to_evict.2.get_next_branch_to_evict.1 ≠ 12 ∧
    deterministic_get_next_branch_to_evict 3 1 = 12 := by
  refine ⟨rfl, rfl, rfl, by decide, by decide⟩

set_option maxRecDepth 40000 in
/-- C2: on a height-1 branch with leaf 2, an all-vacant leaf bucket and a root
bucket holding one block destined for leaf 2, the two `prepare_deepest`
implementations agree, but the oblivious `prepare_target` schedules the move
from the root into the vacant leaf bucket (entry `target[1] = 0`) while the
non-oblivious reference, whose scan jumps to level 1 and then overwrites the
entry it just wrote because `deepest[1]` is the sentinel, returns no move at
all. The two results differ, refuting the claimed exact equality. -/
theorem prepare_target_reference_divergence :
    prepare_deepest [] divergenceBranch 2 = [1, FLOOR_INDEX, FLOOR_INDEX] ∧
    prepare_deepest_non_oblivious_for_testing [] divergenceBranch 2 =
      [1, FLOOR_INDEX, FLOOR_INDEX] ∧
    prepare_target (prepare_deepest [] divergenceBranch 2) divergenceBranch =
      [FLOOR_INDEX, 0, FLOOR_INDEX] ∧
    prepare_target_nonoblivious_for_testing (prepare_deepest [] divergenceBranch 2)
      divergenceBranch = [FLOOR_INDEX, FLOOR_INDEX, FLOOR_INDEX] ∧
    prepare_target (prepare_deepest [] divergenceBranch 2) divergenceBranch ≠
      prepare_target_nonoblivious_for_testing (prepare_deepest [] divergenceBranch 2)
        divergenceBranch := by
  refine ⟨by decide, by decide, by decide, by decide, by decide⟩

set_option maxRecDepth 100000 in
/-- C4: on the fixed 6-level worked example (branch of leaf 16 with contents
16:∅, 8:∅, 4:[19], 2:[18, 20], 1:[24, 27, 31, 30] and stash destination leaves
26, 23, 21, 21), `prepare_deepest` returns `[⊥, ⊥, 3, 5, 5, ⊥]` and
`prepare_target` applied to that result returns `[⊥, ⊥, ⊥, 2, ⊥, 3]`, with
⊥ the sentinel `FLOOR_INDEX`. -/
theorem fixed_tree_prepare_deepest_and_target :
    prepare_deepest fixedStash fixedBranch 16 =
      [FLOOR_INDEX, FLOOR_INDEX, 3, 5, 5, FLOOR_INDEX] ∧
    prepare_target (prepare_deepest fixedStash fixedBranch 16) fixedBranch =
      [FLOOR_INDEX, FLOOR_INDEX, FLOOR_INDEX, 2, FLOOR_INDEX, 3] := by
  refine ⟨by decide, by decide⟩

theorem reverse_bits_aux_eq (w : ℕ) :
    ∀ t acc, reverse_bits_aux w t acc = acc * 2 ^ w + bit_reverse w t := by
  induction w with
  | zero => intro t acc; simp [reverse_bits_aux, bit_reverse]
  | succ w ih =>
    intro t acc
    rw [reverse_bits_aux, bit_reverse, ih]
    ring

theorem bit_reverse_lt (w : ℕ) : ∀ m, bit_reverse w m < 2 ^ w := by
  induction w with
  | zero => intro m; simp [bit_reverse]
  | succ w ih =>
    intro m
    rw [bit_reverse, pow_succ]
    have h1 : m % 2 ≤ 1 := Nat.lt_succ_iff.mp (Nat.mod_lt m (by norm_num))
    have h2 := ih (m / 2)
    calc m % 2 * 2 ^ w + bit_reverse w (m / 2)
        ≤ 1 * 2 ^ w + bit_reverse w (m / 2) := by
          exact Nat.add_le_add_right (Nat.mul_le_mul_right _ h1) _
      _ < 2 ^ w + 2 ^ w := by omega
      _ = 2 ^ w * 2 := by ring

theorem bit_reverse_add (a b : ℕ) :
    ∀ m, bit_reverse (a + b) m = bit_reverse a m * 2 ^ b + bit_reverse b (m / 2 ^ a) := by
  induction a with
  | zero => intro m; simp [bit_reverse]
  | succ a ih =>
    intro m
    have hs : a + 1 + b = (a + b) + 1 := by omega
    rw [hs, bit_reverse, ih (m / 2), bit_reverse]
    have hd : m / 2 / 2 ^ a = m / 2 ^ (a + 1) := by
      rw [Nat.div_div_eq_div_mul, pow_succ, mul_comm]
    rw [hd]
    ring

theorem bit_reverse_mod (w : ℕ) : ∀ m, bit_reverse w (m % 2 ^ w) = bit_reverse w m := by
  induction w with
  | zero => intro m; simp [bit_reverse]
  | succ w ih =>
    intro m
    rw [bit_reverse, bit_reverse]
    have h1 : m % 2 ^ (w + 1) % 2 = m % 2 := by
      rw [Nat.mod_mod_of_dvd]
      exact Dvd.intro_left (2 ^ w) (by rw [pow_succ])
    have h2 : m % 2 ^ (w + 1) / 2 = m / 2 % 2 ^ w := by
      rw [pow_succ, mul_comm, Nat.mod_mul_right_div_self]
    rw [h1, h2, ih]

/-- C6: for every height `1 ≤ h < 64` and every call index `t`,
`deterministic_get_next_branch_to_evict h t` equals `2 ^ h` plus the reversal
of the low `h` bits of `t mod 2 ^ h`, and for `h = 0` it returns 1 for every
`t`. -/
theorem deterministic_branch_is_bit_reversal (h t : ℕ) (hh : h < 64) :
    (1 ≤ h →
      deterministic_get_next_branch_to_evict h t = 2 ^ h + bit_reverse h (t % 2 ^ h)) ∧
    deterministic_get_next_branch_to_evict 0 t = 1 := by
  constructor
  · intro h1
    have hne : h ≠ 0 := by omega
    have hval : deterministic_get_next_branch_to_evict h t
        = 2 ^ h + reverse_bits_u64 t / 2 ^ (64 - h) % 2 ^ h := by
      rw [deterministic_get_next_branch_to_evict, if_neg hne]
    have hrev : reverse_bits_u64 t = bit_reverse 64 t := by
      rw [reverse_bits_u64, reverse_bits_aux_eq]; ring
    have h64 : bit_reverse 64 t
        = bit_reverse h t * 2 ^ (64 - h) + bit_reverse (64 - h) (t / 2 ^ h) := by
      have hb := bit_reverse_add h (64 - h) t
      rw [show h + (64 - h) = 64 from by omega] at hb
      exact hb
    have hdiv : bit_reverse 64 t / 2 ^ (64 - h) = bit_reverse h t := by
      rw [h64, mul_comm, Nat.mul_add_div (pow_pos (by norm_num) _),
        Nat.div_eq_of_lt (bit_reverse_lt _ _), Nat.add_zero]
    have hmod : bit_reverse h t % 2 ^ h = bit_reverse h t :=
      Nat.mod_eq_of_lt (bit_reverse_lt _ _)
    rw [hval, hrev, hdiv, hmod, bit_reverse_mod]
  · rfl

/-- C10: for every height `h < 64` and every call index `t`, the selected leaf
lies in the leaf range `[2 ^ h, 2 ^ (h + 1))`. -/
theorem deterministic_branch_in_leaf_range (h t : ℕ) (hh : h < 64) :
    2 ^ h ≤ deterministic_get_next_branch_to_evict h t ∧
    deterministic_get_next_branch_to_evict h t < 2 ^ (h + 1) := by
  by_cases h0 : h = 0
  · subst h0
    exact ⟨by norm_num [deterministic_get_next_branch_to_evict],
      by norm_num [deterministic_get_next_branch_to_evict]⟩
  · have hval : deterministic_get_next_branch_to_evict h t
        = 2 ^ h + reverse_bits_u64 t / 2 ^ (64 - h) % 2 ^ h := by
      rw [deterministic_get_next_branch_to_evict, if_neg h0]
    have hlt : reverse_bits_u64 t / 2 ^ (64 - h) % 2 ^ h < 2 ^ h :=
      Nat.mod_lt _ (pow_pos (by norm_num) _)
    rw [hval, pow_succ]
    omega

theorem deterministic_branch_is_bit_reversal_witness :
    3 < 64 ∧
    ((1 ≤ 3 →
      deterministic_get_next_branch_to_evict 3 6 = 2 ^ 3 + bit_reverse 3 (6 % 2 ^ 3)) ∧
      deterministic_get_next_branch_to_evict 0 6 = 1) :=
  ⟨by decide, deterministic_branch_is_bit_reversal 3 6 (by decide)⟩

theorem deterministic_branch_in_leaf_range_witness :
    3 < 64 ∧
    (2 ^ 3 ≤ deterministic_get_next_branch_to_evict 3 5 ∧
      deterministic_get_next_branch_to_evict 3 5 < 2 ^ (3 + 1)) :=
  ⟨by decide, deterministic_branch_in_leaf_range 3 5 (by decide)⟩

theorem foldl_or_vacancy (l : List BlockMeta) :
    ∀ b : Bool, l.foldl (fun acc src_meta => acc || meta_is_vacant src_meta) b
      = (b || l.any meta_is_vacant) := by
  induction l with
  | nil => intro b; simp
  | cons x xs ih =>
    intro b
    simp only [List.foldl_cons, List.any_cons, ih, Bool.or_assoc]

/-- C7: `bucket_has_empty_slot` is the OR of the vacancy flag over every slot;
in particular it is true for a nonempty all-vacant bucket, true whenever some
slot is vacant, and false when every slot is occupied. -/
theorem bucket_has_empty_slot_is_or (bucket_meta : BucketMeta) :
    bucket_has_empty_slot bucket_meta = bucket_meta.any meta_is_vacant ∧
    (bucket_meta ≠ [] → (∀ m ∈ bucket_meta, meta_is_vacant m = true) →
      bucket_has_empty_slot bucket_meta = true) ∧
    ((∃ m ∈ bucket_meta, meta_is_vacant m = true) →
      bucket_has_empty_slot bucket_meta = true) ∧
    ((∀ m ∈ bucket_meta, meta_is_vacant m = false) →
      bucket_has_empty_slot bucket_meta = false) := by
  have hor : bucket_has_empty_slot bucket_meta = bucket_meta.any meta_is_vacant := by
    rw [bucket_has_empty_slot, foldl_or_vacancy, Bool.false_or]
  refine ⟨hor, ?_, ?_, ?_⟩
  · intro hne hall
    cases bucket_meta with
    | nil => exact absurd rfl hne
    | cons x xs =>
      rw [hor]
      exact List.any_eq_true.mpr ⟨x, List.mem_cons_self x xs, hall x (List.mem_cons_self x xs)⟩
  · intro hex
    rw [hor]
    exact List.any_eq_true.mpr hex
  · intro hall
    rw [hor]
    simp only [List.any_eq_false]
    intro m hm
    simp [hall m hm]

theorem bucket_has_empty_slot_is_or_witness :
    bucket_has_empty_slot [vacantMeta, ⟨1, 3⟩] = [vacantMeta, ⟨1, 3⟩].any meta_is_vacant ∧
    (([vacantMeta, ⟨1, 3⟩] : BucketMeta) ≠ [] →
      (∀ m ∈ ([vacantMeta, ⟨1, 3⟩] : BucketMeta), meta_is_vacant m = true) →
      bucket_has_empty_slot [vacantMeta, ⟨1, 3⟩] = true) ∧
    ((∃ m ∈ ([vacantMeta, ⟨1, 3⟩] : BucketMeta), meta_is_vacant m = true) →
      bucket_has_empty_slot [vacantMeta, ⟨1, 3⟩] = true) ∧
    ((∀ m ∈ ([vacantMeta, ⟨1, 3⟩] : BucketMeta), meta_is_vacant m = false) →
      bucket_has_empty_slot [vacantMeta, ⟨1, 3⟩] = false) :=
  bucket_has_empty_slot_is_or [vacantMeta, ⟨1, 3⟩]

/-- C8: evicting an empty stash into a branch only performs the `pack`
normalization: no `ct_insert` call happens, whatever branch representation and
external `pack`/`ct_insert` functions are supplied, and the (empty) stash is
untouched. -/
theorem eviction_with_empty_stash_only_packs {Branch Data : Type}
    (pack : Branch → Branch)
    (ct_insert : Bool → Branch → Data → BlockMeta → Branch × BlockMeta)
    (branch : Branch) :
    path_oram_eviction_strategy pack ct_insert [] [] branch = (pack branch, []) :=
  rfl

theorem deep_step_bridge (leaf meta_len bucket_num : ℕ) (s : DeepState) (elem : BlockMeta) :
    (let elem_destination : ℕ := lowest_height_legal_index_impl elem.leafNum leaf meta_len
     let is_elem_deeper : Bool :=
       decide (elem_destination < s.goal) && decide (elem_destination < bucket_num)
         && ! meta_is_vacant elem
     { goal := if is_elem_deeper then elem_destination else s.goal
       src := if is_elem_deeper then bucket_num else s.src } : DeepState)
      = deep_step s (to_cand leaf meta_len bucket_num elem) := by
  by_cases h1 : lowest_height_legal_index_impl elem.leafNum leaf meta_len < s.goal <;>
    by_cases h2 : lowest_height_legal_index_impl elem.leafNum leaf meta_len < bucket_num <;>
    by_cases h3 : meta_is_vacant elem = false <;>
    simp [deep_step, to_cand, h1, h2, h3]

theorem deep_fold_bridge (leaf meta_len bucket_num : ℕ) :
    ∀ (metas : List BlockMeta) (st : DeepState),
      metas.foldl (fun s elem =>
        let elem_destination : ℕ := lowest_height_legal_index_impl elem.leafNum leaf meta_len
        let is_elem_deeper : Bool :=
          decide (elem_destination < s.goal) && decide (elem_destination < bucket_num)
            && ! meta_is_vacant elem
        { goal := if is_elem_deeper then elem_destination else s.goal
          src := if is_elem_deeper then bucket_num else s.src }) st
      = List.foldl deep_step st (level_cands leaf meta_len bucket_num metas) := by
  intro metas
  induction metas with
  | nil => intro st; rfl
  | cons x xs ih =>
    intro st
    rw [List.foldl_cons, ih, deep_step_bridge leaf meta_len bucket_num st x]
    simp only [level_cands, List.map_cons, List.foldl_cons]

theorem update_single_fst (leaf meta_len bucket_num : ℕ) (metas : List BlockMeta)
    (st : DeepState) :
    (update_goal_and_deepest_for_a_single_bucket leaf meta_len bucket_num metas st).1
      = deep_entry bucket_num st := by
  by_cases h : bucket_num < st.goal <;>
    simp [update_goal_and_deepest_for_a_single_bucket, deep_entry, h]

theorem update_single_snd (leaf meta_len bucket_num : ℕ) (metas : List BlockMeta)
    (st : DeepState) :
    (update_goal_and_deepest_for_a_single_bucket leaf meta_len bucket_num metas st).2
      = List.foldl deep_step st (level_cands leaf meta_len bucket_num metas) := by
  simp only [update_goal_and_deepest_for_a_single_bucket]
  exact deep_fold_bridge leaf meta_len bucket_num metas st

theorem getD_map_range (f : ℕ → ℕ) (k i d : ℕ) (h : i < k) :
    ((List.range k).map f).getD i d = f i := by
  rw [List.getD_eq_getElem?_getD]
  simp [List.getElem?_map, List.getElem?_range h]

theorem getD_concat_len (l : List ℕ) (e d : ℕ) : (l ++ [e]).getD l.length d = e := by
  rw [List.getD_eq_getElem?_getD]
  simp

theorem stream_seg_succ_of_le (leaf meta_len : ℕ) (branch_meta : List BucketMeta)
    (k j : ℕ) (h : j ≤ k) :
    stream_seg leaf meta_len branch_meta (k + 1) j
      = level_cands leaf meta_len k (branch_meta.getD k []) ++
          stream_seg leaf meta_len branch_meta k j := by
  rw [stream_seg, if_pos h]

theorem stream_seg_succ_self (leaf meta_len : ℕ) (branch_meta : List BucketMeta) (k : ℕ) :
    stream_seg leaf meta_len branch_meta (k + 1) (k + 1) = [] := by
  rw [stream_seg, if_neg (by omega)]

theorem deepest_loop_eq (leaf meta_len : ℕ) (branch_meta : List BucketMeta) :
    ∀ (k : ℕ) (st : DeepState),
      deepest_loop leaf meta_len branch_meta k st
        = ((List.range k).map (fun i =>
            deep_entry i (List.foldl deep_step st
              (stream_seg leaf meta_len branch_meta k (i + 1)))),
           List.foldl deep_step st (stream_seg leaf meta_len branch_meta k 0)) := by
  intro k
  induction k with
  | zero => intro st; rfl
  | succ k ih =>
    intro st
    simp only [deepest_loop]
    rw [ih, update_single_fst, update_single_snd]
    congr 1
    · rw [List.range_succ, List.map_append, List.map_singleton]
      congr 1
      · apply List.map_eq_map_iff.mpr
        intro i hi
        rw [← List.foldl_append,
          stream_seg_succ_of_le leaf meta_len branch_meta k (i + 1)
            (List.mem_range.mp hi)]
      · rw [stream_seg_succ_self]
        rfl
    · rw [← List.foldl_append, stream_seg_succ_of_le leaf meta_len branch_meta k 0 (by omega)]

theorem prepare_deepest_eq (stash_meta : List BlockMeta) (branch_meta : List BucketMeta)
    (leaf : ℕ) :
    prepare_deepest stash_meta branch_meta leaf
      = (List.range branch_meta.length).map (fun i =>
          deep_entry i (List.foldl deep_step ⟨FLOOR_INDEX, FLOOR_INDEX⟩
            (level_cands leaf branch_meta.length branch_meta.length stash_meta
              ++ stream_seg leaf branch_meta.length branch_meta branch_meta.length (i + 1))))
        ++ [deep_entry branch_meta.length ⟨FLOOR_INDEX, FLOOR_INDEX⟩] := by
  simp only [prepare_deepest]
  rw [deepest_loop_eq, update_single_fst, update_single_snd]
  congr 1
  apply List.map_eq_map_iff.mpr
  intro i _
  rw [List.foldl_append]

theorem prepare_deepest_length (stash_meta : List BlockMeta) (branch_meta : List BucketMeta)
    (leaf : ℕ) :
    (prepare_deepest stash_meta branch_meta leaf).length = branch_meta.length + 1 := by
  rw [prepare_deepest_eq]
  simp

theorem prepare_deepest_getD_lt (stash_meta : List BlockMeta) (branch_meta : List BucketMeta)
    (leaf i : ℕ) (hi : i < branch_meta.length) :
    (prepare_deepest stash_meta branch_meta leaf).getD i FLOOR_INDEX
      = deep_entry i (List.foldl deep_step ⟨FLOOR_INDEX, FLOOR_INDEX⟩
          (level_cands leaf branch_meta.length branch_meta.length stash_meta
            ++ stream_seg leaf branch_meta.length branch_meta branch_meta.length (i + 1))) := by
  rw [prepare_deepest_eq, List.getD_append _ _ _ _ (by simp [hi]),
    getD_map_range _ _ _ _ hi]

theorem prepare_deepest_getD_len (stash_meta : List BlockMeta) (branch_meta : List BucketMeta)
    (leaf : ℕ) :
    (prepare_deepest stash_meta branch_meta leaf).getD branch_meta.length FLOOR_INDEX
      = deep_entry branch_meta.length ⟨FLOOR_INDEX, FLOOR_INDEX⟩ := by
  rw [prepare_deepest_eq]
  simp

theorem deep_foldl_min (M : ℕ) (hM : M < FLOOR_INDEX) :
    ∀ S : List Cand, (∀ c ∈ S, c.lvl ≤ M) →
      ((List.foldl deep_step ⟨FLOOR_INDEX, FLOOR_INDEX⟩ S = ⟨FLOOR_INDEX, FLOOR_INDEX⟩ ∧
          ∀ c ∈ S, ¬ elig_cand c) ∨
        ((∃ c ∈ S, elig_cand c ∧
            c.dst = (List.foldl deep_step ⟨FLOOR_INDEX, FLOOR_INDEX⟩ S).goal ∧
            c.lvl = (List.foldl deep_step ⟨FLOOR_INDEX, FLOOR_INDEX⟩ S).src) ∧
          ∀ c ∈ S, elig_cand c →
            (List.foldl deep_step ⟨FLOOR_INDEX, FLOOR_INDEX⟩ S).goal ≤ c.dst)) := by
  intro S
  induction S using List.reverseRecOn with
  | nil =>
    intro _
    left
    exact ⟨rfl, by simp⟩
  | append_singleton l c ihl =>
    intro hS
    have hl : ∀ x ∈ l, x.lvl ≤ M := fun x hx => hS x (List.mem_append_left _ hx)
    have hc : c.lvl ≤ M := hS c (List.mem_append_right _ (List.mem_singleton_self c))
    rw [List.foldl_append, List.foldl_cons, List.foldl_nil]
    by_cases hcond : c.dst < (List.foldl deep_step ⟨FLOOR_INDEX, FLOOR_INDEX⟩ l).goal ∧
        c.dst < c.lvl ∧ c.vac = false
    · rw [deep_step, if_pos hcond]
      right
      constructor
      · exact ⟨c, List.mem_append_right _ (List.mem_singleton_self c),
          ⟨hcond.2.2, hcond.2.1⟩, rfl, rfl⟩
      · intro x hx hex
        rcases List.mem_append.mp hx with hxl | hxc
        · rcases ihl hl with ⟨_, hnone⟩ | ⟨_, hmin⟩
          · exact absurd hex (hnone x hxl)
          · exact le_of_lt (lt_of_lt_of_le hcond.1 (hmin x hxl hex))
        · rw [List.mem_singleton.mp hxc]
    · rw [deep_step, if_neg hcond]
      by_cases hce : elig_cand c
      · have hgle : (List.foldl deep_step ⟨FLOOR_INDEX, FLOOR_INDEX⟩ l).goal ≤ c.dst := by
          rcases Nat.lt_or_ge c.dst (List.foldl deep_step ⟨FLOOR_INDEX, FLOOR_INDEX⟩ l).goal
            with hlt | hge
          · exact absurd ⟨hlt, hce.2, hce.1⟩ hcond
          · exact hge
        rcases ihl hl with ⟨heq, _⟩ | ⟨⟨w, hw, hwp⟩, hmin⟩
        · exfalso
          have hgoal : (List.foldl deep_step ⟨FLOOR_INDEX, FLOOR_INDEX⟩ l).goal = FLOOR_INDEX := by
            rw [heq]
          rw [hgoal] at hgle
          have hcd : c.dst < FLOOR_INDEX :=
            lt_of_lt_of_le hce.2 (le_of_lt (lt_of_le_of_lt hc hM))
          omega
        · right
          refine ⟨⟨w, List.mem_append_left _ hw, hwp⟩, ?_⟩
          intro x hx hex
          rcases List.mem_append.mp hx with hxl | hxc
          · exact hmin x hxl hex
          · rw [List.mem_singleton.mp hxc]; exact hgle
      · rcases ihl hl with ⟨heq, hnone⟩ | ⟨⟨w, hw, hwp⟩, hmin⟩
        · left
          refine ⟨heq, ?_⟩
          intro x hx
          rcases List.mem_append.mp hx with hxl | hxc
          · exact hnone x hxl
          · rw [List.mem_singleton.mp hxc]; exact hce
        · right
          refine ⟨⟨w, List.mem_append_left _ hw, hwp⟩, ?_⟩
          intro x hx hex
          rcases List.mem_append.mp hx with hxl | hxc
          · exact hmin x hxl hex
          · exact absurd hex (by rw [List.mem_singleton.mp hxc]; exact hce)

theorem to_cand_lvl (leaf meta_len b : ℕ) (blk : BlockMeta) :
    (to_cand leaf meta_len b blk).lvl = b := rfl

theorem to_cand_dst (leaf meta_len b : ℕ) (blk : BlockMeta) :
    (to_cand leaf meta_len b blk).dst = lowest_height_legal_index_impl blk.leafNum leaf meta_len :=
  rfl

theorem to_cand_vac (leaf meta_len b : ℕ) (blk : BlockMeta) :
    (to_cand leaf meta_len b blk).vac = meta_is_vacant blk := rfl

theorem stream_seg_mem (leaf meta_len : ℕ) (branch_meta : List BucketMeta) :
    ∀ (k j : ℕ) (c : Cand),
      c ∈ stream_seg leaf meta_len branch_meta k j ↔
        ∃ b, j ≤ b ∧ b < k ∧ ∃ blk ∈ branch_meta.getD b [], c = to_cand leaf meta_len b blk := by
  intro k
  induction k with
  | zero =>
    intro j c
    rw [show stream_seg leaf meta_len branch_meta 0 j = [] from rfl]
    simp
  | succ k ih =>
    intro j c
    by_cases hj : j ≤ k
    · rw [stream_seg_succ_of_le _ _ _ _ _ hj, List.mem_append]
      constructor
      · rintro (hmem | hmem)
        · rcases List.mem_map.mp hmem with ⟨blk, hblk, hc⟩
          exact ⟨k, hj, by omega, blk, hblk, hc.symm⟩
        · rcases (ih j c).mp hmem with ⟨b, hjb, hbk, blk, hblk, hc⟩
          exact ⟨b, hjb, by omega, blk, hblk, hc⟩
      · rintro ⟨b, hjb, hbk, blk, hblk, hc⟩
        by_cases hbk2 : b = k
        · subst hbk2
          exact Or.inl (List.mem_map.mpr ⟨blk, hblk, hc.symm⟩)
        · exact Or.inr ((ih j c).mpr ⟨b, hjb, by omega, blk, hblk, hc⟩)
    · rw [stream_seg, if_neg hj]
      simp only [List.not_mem_nil, false_iff, not_exists]
      intro b hb
      omega

theorem full_stream_mem (stash_meta : List BlockMeta) (branch_meta : List BucketMeta)
    (leaf i : ℕ) (hi : i < branch_meta.length) (c : Cand) :
    c ∈ level_cands leaf branch_meta.length branch_meta.length stash_meta
        ++ stream_seg leaf branch_meta.length branch_meta branch_meta.length (i + 1) ↔
      ∃ b blk, i < b ∧ b ≤ branch_meta.length ∧
        blk ∈ level_metas stash_meta branch_meta b ∧
        c = to_cand leaf branch_meta.length b blk := by
  rw [List.mem_append, stream_seg_mem]
  constructor
  · rintro (hmem | ⟨b, hjb, hbk, blk, hblk, hc⟩)
    · rcases List.mem_map.mp hmem with ⟨blk, hblk, hc⟩
      refine ⟨branch_meta.length, blk, hi, le_refl _, ?_, hc.symm⟩
      rw [level_metas, if_pos rfl]
      exact hblk
    · refine ⟨b, blk, by omega, by omega, ?_, hc⟩
      rw [level_metas, if_neg (by omega)]
      exact hblk
  · rintro ⟨b, blk, hib, hbm, hblk, hc⟩
    by_cases hbm2 : b = branch_meta.length
    · subst hbm2
      rw [level_metas, if_pos rfl] at hblk
      exact Or.inl (List.mem_map.mpr ⟨blk, hblk, hc.symm⟩)
    · rw [level_metas, if_neg hbm2] at hblk
      exact Or.inr ⟨b, by omega, by omega, blk, hblk, hc⟩

theorem prepare_deepest_char (stash_meta : List BlockMeta) (branch_meta : List BucketMeta)
    (leaf : ℕ) (hm : branch_meta.length + 1 < 2 ^ 64) (i : ℕ) (hi : i ≤ branch_meta.length)
    (v : ℕ) (hv : v = (prepare_deepest stash_meta branch_meta leaf).getD i FLOOR_INDEX) :
    (v = FLOOR_INDEX ∧ ∀ b blk, ¬ deepest_candidate stash_meta branch_meta leaf i b blk) ∨
    (v ≠ FLOOR_INDEX ∧ i < v ∧ v ≤ branch_meta.length ∧
      ∃ blk, deepest_candidate stash_meta branch_meta leaf i v blk ∧
        ∀ b2 blk2, deepest_candidate stash_meta branch_meta leaf i b2 blk2 →
          lowest_height_legal_index_impl blk.leafNum leaf branch_meta.length ≤
            lowest_height_legal_index_impl blk2.leafNum leaf branch_meta.length) := by
  have hMF : branch_meta.length < FLOOR_INDEX := by
    rw [FLOOR_INDEX]; omega
  rcases Nat.lt_or_ge i branch_meta.length with hilt | hige
  · -- branch bucket entry
    rw [prepare_deepest_getD_lt stash_meta branch_meta leaf i hilt] at hv
    set S := level_cands leaf branch_meta.length branch_meta.length stash_meta
        ++ stream_seg leaf branch_meta.length branch_meta branch_meta.length (i + 1) with hSdef
    have hSlvl : ∀ c ∈ S, c.lvl ≤ branch_meta.length := by
      intro c hc
      rcases (full_stream_mem stash_meta branch_meta leaf i hilt c).mp hc
        with ⟨b, blk, _, hbm, _, hceq⟩
      rw [hceq, to_cand_lvl]
      exact hbm
    have hSi : ∀ c ∈ S, i < c.lvl := by
      intro c hc
      rcases (full_stream_mem stash_meta branch_meta leaf i hilt c).mp hc
        with ⟨b, blk, hib, _, _, hceq⟩
      rw [hceq, to_cand_lvl]
      exact hib
    rcases deep_foldl_min branch_meta.length hMF S hSlvl with
      ⟨heq, hnone⟩ | ⟨⟨w, hwS, hwe, hwg, hws⟩, hmin⟩
    · left
      constructor
      · have hiF : i < FLOOR_INDEX := by omega
        rw [hv, heq, deep_entry,
          if_pos (show i < (⟨FLOOR_INDEX, FLOOR_INDEX⟩ : DeepState).goal from hiF)]
      · intro b blk hcand
        rcases hcand with ⟨hib, hbm, hblk, hvac, hdle⟩
        refine hnone (to_cand leaf branch_meta.length b blk) ?_ ?_
        · exact (full_stream_mem stash_meta branch_meta leaf i hilt _).mpr
            ⟨b, blk, hib, hbm, hblk, rfl⟩
        · exact ⟨hvac, by rw [to_cand_dst, to_cand_lvl]; omega⟩
    · by_cases hgoal : i < (List.foldl deep_step ⟨FLOOR_INDEX, FLOOR_INDEX⟩ S).goal
      · left
        constructor
        · rw [hv, deep_entry, if_pos hgoal]
        · intro b blk hcand
          rcases hcand with ⟨hib, hbm, hblk, hvac, hdle⟩
          have hmem : to_cand leaf branch_meta.length b blk ∈ S :=
            (full_stream_mem stash_meta branch_meta leaf i hilt _).mpr
              ⟨b, blk, hib, hbm, hblk, rfl⟩
          have helig : elig_cand (to_cand leaf branch_meta.length b blk) :=
            ⟨hvac, by rw [to_cand_dst, to_cand_lvl]; omega⟩
          have := hmin _ hmem helig
          rw [to_cand_dst] at this
          omega
      · right
        rcases (full_stream_mem stash_meta branch_meta leaf i hilt w).mp hwS
          with ⟨b0, blk0, hib0, hb0m, hblk0, hweq⟩
        have hwlvl : w.lvl = b0 := by rw [hweq, to_cand_lvl]
        have hwdst : w.dst = lowest_height_legal_index_impl blk0.leafNum leaf branch_meta.length := by
          rw [hweq, to_cand_dst]
        have hwvac : meta_is_vacant blk0 = false := by
          have := hwe.1
          rw [hweq, to_cand_vac] at this
          exact this
        have hventry : v = w.lvl := by
          rw [hv, deep_entry, if_neg hgoal, hws]
        have hdle0 : lowest_height_legal_index_impl blk0.leafNum leaf branch_meta.length ≤ i := by
          rw [← hwdst, hwg]
          omega
        refine ⟨by rw [hventry, hwlvl]; omega, by rw [hventry, hwlvl]; exact hib0,
          by rw [hventry, hwlvl]; exact hb0m, blk0, ?_, ?_⟩
        · rw [hventry, hwlvl]
          exact ⟨hib0, hb0m, hblk0, hwvac, hdle0⟩
        · intro b2 blk2 hcand2
          rcases hcand2 with ⟨hib2, hbm2, hblk2, hvac2, hdle2⟩
          have hmem2 : to_cand leaf branch_meta.length b2 blk2 ∈ S :=
            (full_stream_mem stash_meta branch_meta leaf i hilt _).mpr
              ⟨b2, blk2, hib2, hbm2, hblk2, rfl⟩
          have helig2 : elig_cand (to_cand leaf branch_meta.length b2 blk2) :=
            ⟨hvac2, by rw [to_cand_dst, to_cand_lvl]; omega⟩
          have := hmin _ hmem2 helig2
          rw [to_cand_dst] at this
          rw [← hwdst, hwg]
          exact this
  · -- stash entry: i = branch length, no level lies strictly above
    have hieq : i = branch_meta.length := by omega
    left
    constructor
    · rw [hv, hieq, prepare_deepest_getD_len, deep_entry,
        if_pos (show branch_meta.length < (⟨FLOOR_INDEX, FLOOR_INDEX⟩ : DeepState).goal from hMF)]
    · intro b blk hcand
      rcases hcand with ⟨hib, hbm, _⟩
      omega

theorem target_step_inv (deepest_meta : List ℕ) (i : ℕ) (b : BucketMeta) (st : TargetState)
    (hinv : target_inv deepest_meta i st) (hiF : i < FLOOR_INDEX) :
    target_inv deepest_meta (i + 1) (target_step deepest_meta i b st) := by
  obtain ⟨hlen, hent, hst⟩ := hinv
  have hentnew : ∀ e : ℕ, (e ≠ FLOOR_INDEX → e < i ∧ deepest_meta.getD e FLOOR_INDEX = i) →
      ∀ k, (st.target_acc ++ [e]).getD k FLOOR_INDEX ≠ FLOOR_INDEX →
        (st.target_acc ++ [e]).getD k FLOOR_INDEX < k ∧
          deepest_meta.getD ((st.target_acc ++ [e]).getD k FLOOR_INDEX) FLOOR_INDEX = k := by
    intro e he k hkne
    rcases Nat.lt_trichotomy k i with hk | hk | hk
    · have hkl : k < st.target_acc.length := by omega
      rw [List.getD_append _ _ _ _ hkl] at hkne ⊢
      exact hent k hkne
    · subst hk
      have hge : (st.target_acc ++ [e]).getD k FLOOR_INDEX = e := by
        rw [show (st.target_acc ++ [e]).getD k FLOOR_INDEX
            = (st.target_acc ++ [e]).getD st.target_acc.length FLOOR_INDEX from by rw [hlen]]
        exact getD_concat_len _ _ _
      rw [hge] at hkne ⊢
      exact he hkne
    · have hge : (st.target_acc ++ [e]).getD k FLOOR_INDEX = FLOOR_INDEX := by
        apply List.getD_eq_default
        simp only [List.length_append, List.length_singleton, hlen]
        omega
      exact absurd hge hkne
  have hlennew : ∀ e : ℕ, (st.target_acc ++ [e]).length = i + 1 := by
    intro e
    simp [hlen]
  by_cases hss : i = st.src
  · have hbeq : (i == st.src) = true := beq_iff_eq.mpr hss
    rcases hst with ⟨hsF, _⟩ | ⟨hdlt, hsrc, _⟩
    · exact absurd hsF (by omega)
    by_cases hdF : deepest_meta.getD i FLOOR_INDEX = FLOOR_INDEX
    · have hdQ : deepest_meta[i]?.getD FLOOR_INDEX = FLOOR_INDEX := by
        rw [← List.getD_eq_getElem?_getD]
        exact hdF
      have hacc : (target_step deepest_meta i b st).target_acc
          = st.target_acc ++ [st.dest] := by
        simp [target_step, hbeq]
      have hdnew : (target_step deepest_meta i b st).dest = FLOOR_INDEX := by
        simp [target_step, hbeq, hdQ]
      have hsnew : (target_step deepest_meta i b st).src = FLOOR_INDEX := by
        simp [target_step, hbeq, hdQ]
      refine ⟨by rw [hacc]; exact hlennew _, ?_, Or.inl ⟨hsnew, hdnew⟩⟩
      rw [hacc]
      exact hentnew st.dest (fun _ => ⟨hdlt, by rw [← hsrc, ← hss]⟩)
    · have hdQ : ¬ deepest_meta[i]?.getD FLOOR_INDEX = FLOOR_INDEX := by
        rw [← List.getD_eq_getElem?_getD]
        exact hdF
      have hacc : (target_step deepest_meta i b st).target_acc
          = st.target_acc ++ [st.dest] := by
        simp [target_step, hbeq]
      have hdnew : (target_step deepest_meta i b st).dest = i := by
        simp [target_step, hbeq, hdQ]
      have hsnew : (target_step deepest_meta i b st).src
          = deepest_meta.getD i FLOOR_INDEX := by
        simp [target_step, hbeq, hdQ, List.getD_eq_getElem?_getD]
      refine ⟨by rw [hacc]; exact hlennew _, ?_, ?_⟩
      · rw [hacc]
        exact hentnew st.dest (fun _ => ⟨hdlt, by rw [← hsrc, ← hss]⟩)
      · right
        rw [hdnew, hsnew]
        exact ⟨by omega, rfl, hdF⟩
  · have hbeq : (i == st.src) = false := beq_eq_false_iff_ne.mpr (fun h => hss h)
    have hacc : (target_step deepest_meta i b st).target_acc
        = st.target_acc ++ [FLOOR_INDEX] := by
      simp [target_step, hbeq]
    by_cases hfut : ((st.dest == FLOOR_INDEX && bucket_has_empty_slot b) = true ∧
        deepest_meta.getD i FLOOR_INDEX ≠ FLOOR_INDEX)
    · have hdQ : ¬ deepest_meta[i]?.getD FLOOR_INDEX = FLOOR_INDEX := by
        rw [← List.getD_eq_getElem?_getD]
        exact hfut.2
      have hdnew : (target_step deepest_meta i b st).dest = i := by
        simp [target_step, hbeq, hfut.1, hdQ]
      have hsnew : (target_step deepest_meta i b st).src
          = deepest_meta.getD i FLOOR_INDEX := by
        simp [target_step, hbeq, hfut.1, hdQ, List.getD_eq_getElem?_getD]
      refine ⟨by rw [hacc]; exact hlennew _, ?_, ?_⟩
      · rw [hacc]
        exact hentnew FLOOR_INDEX (fun h => absurd rfl h)
      · right
        rw [hdnew, hsnew]
        exact ⟨by omega, rfl, hfut.2⟩
    · have hkeep : (target_step deepest_meta i b st).dest = st.dest ∧
          (target_step deepest_meta i b st).src = st.src := by
        by_cases hvb : (st.dest == FLOOR_INDEX && bucket_has_empty_slot b) = true
        · have hdeq : deepest_meta.getD i FLOOR_INDEX = FLOOR_INDEX := by
            by_contra hne
            exact hfut ⟨hvb, hne⟩
          have hdQ : deepest_meta[i]?.getD FLOOR_INDEX = FLOOR_INDEX := by
            rw [← List.getD_eq_getElem?_getD]
            exact hdeq
          constructor <;> simp [target_step, hbeq, hvb, hdQ]
        · have hvb2 : (st.dest == FLOOR_INDEX && bucket_has_empty_slot b) = false :=
            Bool.eq_false_iff.mpr hvb
          constructor <;> simp [target_step, hbeq, hvb2]
      refine ⟨by rw [hacc]; exact hlennew _, ?_, ?_⟩
      · rw [hacc]
        exact hentnew FLOOR_INDEX (fun h => absurd rfl h)
      · rw [hkeep.1, hkeep.2]
        rcases hst with hl | ⟨hdlt, hsrc, hsne⟩
        · exact Or.inl hl
        · exact Or.inr ⟨by omega, hsrc, hsne⟩

theorem target_loop_inv (deepest_meta : List ℕ) :
    ∀ (bs : List BucketMeta) (i : ℕ) (st : TargetState),
      target_inv deepest_meta i st → i + bs.length < FLOOR_INDEX →
      target_inv deepest_meta (i + bs.length) (target_loop deepest_meta bs i st) := by
  intro bs
  induction bs with
  | nil =>
    intro i st hinv _
    simpa using hinv
  | cons b rest ih =>
    intro i st hinv hF
    rw [target_loop]
    simp only [List.length_cons] at hF
    have h1 := target_step_inv deepest_meta i b st hinv (by omega)
    have h2 := ih (i + 1) _ h1 (by omega)
    rw [show i + (b :: rest).length = (i + 1) + rest.length from by simp; omega]
    exact h2

theorem target_loop_acc_length (deepest_meta : List ℕ) :
    ∀ (bs : List BucketMeta) (i : ℕ) (st : TargetState),
      (target_loop deepest_meta bs i st).target_acc.length
        = st.target_acc.length + bs.length := by
  intro bs
  induction bs with
  | nil => intro i st; simp [target_loop]
  | cons b rest ih =>
    intro i st
    rw [target_loop, ih]
    simp [target_step]
    omega

theorem prepare_target_length (deepest_meta : List ℕ) (branch_meta : List BucketMeta) :
    (prepare_target deepest_meta branch_meta).length = branch_meta.length + 1 := by
  simp only [prepare_target]
  rw [List.length_append, target_loop_acc_length]
  simp

theorem prepare_target_entries (deepest_meta : List ℕ) (branch_meta : List BucketMeta)
    (hm : branch_meta.length + 1 < 2 ^ 64) (k : ℕ)
    (v : ℕ) (hv : v = (prepare_target deepest_meta branch_meta).getD k FLOOR_INDEX)
    (hne : v ≠ FLOOR_INDEX) :
    v < k ∧ deepest_meta.getD v FLOOR_INDEX = k := by
  have hMF : branch_meta.length < FLOOR_INDEX := by
    rw [FLOOR_INDEX]; omega
  have hinv0 : target_inv deepest_meta 0 ⟨[], FLOOR_INDEX, FLOOR_INDEX⟩ := by
    refine ⟨rfl, ?_, Or.inl ⟨rfl, rfl⟩⟩
    intro k2 hk2
    simp [List.getD] at hk2
  have hloop := target_loop_inv deepest_meta branch_meta 0 ⟨[], FLOOR_INDEX, FLOOR_INDEX⟩
    hinv0 (by omega)
  rw [Nat.zero_add] at hloop
  set stf := target_loop deepest_meta branch_meta 0 ⟨[], FLOOR_INDEX, FLOOR_INDEX⟩ with hstf
  obtain ⟨hlen, hent, hst⟩ := hloop
  have hpt : prepare_target deepest_meta branch_meta
      = stf.target_acc ++
        [if branch_meta.length == stf.src then stf.dest else FLOOR_INDEX] := rfl
  rcases Nat.lt_trichotomy k branch_meta.length with hk | hk | hk
  · rw [hpt, List.getD_append _ _ _ _ (by omega)] at hv
    subst hv
    exact hent k hne
  · rw [hpt, hk, ← hlen, getD_concat_len] at hv
    rw [hlen] at hv
    by_cases hes : branch_meta.length = stf.src
    · rw [if_pos (beq_iff_eq.mpr hes)] at hv
      rcases hst with ⟨hsF, _⟩ | ⟨hdlt, hsrc, hsne⟩
      · exact absurd hsF (by omega)
      · refine ⟨by omega, ?_⟩
        rw [hv, ← hsrc, ← hes, hk]
    · rw [if_neg (by simp [hes])] at hv
      exact absurd hv hne
  · rw [hpt] at hv
    rw [List.getD_eq_default] at hv
    · exact absurd hv hne
    · simp only [List.length_append, List.length_singleton, hlen]
      omega

theorem filterMap_sources_le_one (f : ℕ → Option (ℕ × ℕ))
    (hf : ∀ i x, f i = some x → x.1 = i) (lvl : ℕ) :
    ∀ l : List ℕ, l.Nodup → ((l.filterMap f).filter (fun p => p.1 == lvl)).length ≤ 1 := by
  intro l
  induction l with
  | nil => intro _; simp
  | cons a t ih =>
    intro hnd
    rw [List.filterMap_cons]
    rcases hfa : f a with _ | x
    · exact ih (List.nodup_cons.mp hnd).2
    · rw [List.filter_cons]
      by_cases hx : (x.1 == lvl) = true
      · rw [if_pos hx]
        have hx1 : x.1 = a := hf a x hfa
        have hlvl : a = lvl := by
          rw [← hx1]
          exact beq_iff_eq.mp hx
        have hrest : (List.filter (fun p => p.1 == lvl) (List.filterMap f t)) = [] := by
          apply List.filter_eq_nil_iff.mpr
          intro p hp
          rcases List.mem_filterMap.mp hp with ⟨j, hj, hfj⟩
          have hpj : p.1 = j := hf j p hfj
          have hja : j ≠ a := fun h => (List.nodup_cons.mp hnd).1 (h ▸ hj)
          simp only [beq_iff_eq, hpj]
          omega
        rw [hrest]
        simp
      · rw [if_neg hx]
        exact ih (List.nodup_cons.mp hnd).2

theorem planned_moves_at_most_one_src (target_meta : List ℕ) (lvl : ℕ) :
    ((planned_moves target_meta).filter (fun p => p.1 == lvl)).length ≤ 1 := by
  apply filterMap_sources_le_one _ _ lvl _ (List.nodup_range _)
  intro i x hfx
  by_cases h : target_meta.getD i FLOOR_INDEX = FLOOR_INDEX
  · rw [if_pos h] at hfx
    exact absurd hfx (by simp)
  · rw [if_neg h] at hfx
    have := Option.some.inj hfx
    rw [← this]

/-- C5: entry `i` of `prepare_deepest` is the level of a non-vacant block among
levels strictly above `i` (branch buckets above `i`, or the stash as virtual
level `n`) that may legally occupy some bucket at or below `i` and whose legal
destination is deepest among all such blocks, and it is the sentinel
`FLOOR_INDEX` exactly when no such block exists. -/
theorem prepare_deepest_entry_spec (stash_meta : List BlockMeta)
    (branch_meta : List BucketMeta) (leaf : ℕ)
    (hm : branch_meta.length + 1 < 2 ^ 64) (i : ℕ) (hi : i ≤ branch_meta.length)
    (v : ℕ) (hv : v = (prepare_deepest stash_meta branch_meta leaf).getD i FLOOR_INDEX) :
    (v = FLOOR_INDEX ∧ ∀ b blk, ¬ deepest_candidate stash_meta branch_meta leaf i b blk) ∨
    (v ≠ FLOOR_INDEX ∧ i < v ∧ v ≤ branch_meta.length ∧
      ∃ blk, deepest_candidate stash_meta branch_meta leaf i v blk ∧
        ∀ b2 blk2, deepest_candidate stash_meta branch_meta leaf i b2 blk2 →
          lowest_height_legal_index_impl blk.leafNum leaf branch_meta.length ≤
            lowest_height_legal_index_impl blk2.leafNum leaf branch_meta.length) :=
  prepare_deepest_char stash_meta branch_meta leaf hm i hi v hv

set_option maxRecDepth 100000 in
theorem prepare_deepest_entry_spec_witness :
    ((3 : ℕ) = FLOOR_INDEX ∧ ∀ b blk, ¬ deepest_candidate fixedStash fixedBranch 16 2 b blk) ∨
    ((3 : ℕ) ≠ FLOOR_INDEX ∧ 2 < 3 ∧ 3 ≤ fixedBranch.length ∧
      ∃ blk, deepest_candidate fixedStash fixedBranch 16 2 3 blk ∧
        ∀ b2 blk2, deepest_candidate fixedStash fixedBranch 16 2 b2 blk2 →
          lowest_height_legal_index_impl blk.leafNum 16 fixedBranch.length ≤
            lowest_height_legal_index_impl blk2.leafNum 16 fixedBranch.length) :=
  prepare_deepest_entry_spec fixedStash fixedBranch 16 (by decide) 2 (by decide) 3 (by decide)

/-- C9: every non-sentinel entry `deepest[i]` points strictly above `i` (toward
stash and root), and every non-sentinel entry `target[i]` of the plan computed
from it points strictly below `i` (toward the leaf). -/
theorem deepest_and_target_move_directions (stash_meta : List BlockMeta)
    (branch_meta : List BucketMeta) (leaf : ℕ)
    (hm : branch_meta.length + 1 < 2 ^ 64) (i : ℕ) :
    ((prepare_deepest stash_meta branch_meta leaf).getD i FLOOR_INDEX ≠ FLOOR_INDEX →
      i < (prepare_deepest stash_meta branch_meta leaf).getD i FLOOR_INDEX) ∧
    ((prepare_target (prepare_deepest stash_meta branch_meta leaf) branch_meta).getD i
        FLOOR_INDEX ≠ FLOOR_INDEX →
      (prepare_target (prepare_deepest stash_meta branch_meta leaf) branch_meta).getD i
        FLOOR_INDEX < i) := by
  constructor
  · intro hne
    rcases le_or_lt i branch_meta.length with hi | hi
    · rcases prepare_deepest_char stash_meta branch_meta leaf hm i hi _ rfl with
        ⟨hF, _⟩ | ⟨_, hlt, _⟩
      · exact absurd hF hne
      · exact hlt
    · exfalso
      apply hne
      apply List.getD_eq_default
      rw [prepare_deepest_length]
      omega
  · intro hne
    exact (prepare_target_entries _ _ hm i _ rfl hne).1

set_option maxRecDepth 100000 in
theorem deepest_and_target_move_directions_witness :
    fixedBranch.length + 1 < 2 ^ 64 ∧
    (((prepare_deepest fixedStash fixedBranch 16).getD 3 FLOOR_INDEX ≠ FLOOR_INDEX →
        3 < (prepare_deepest fixedStash fixedBranch 16).getD 3 FLOOR_INDEX) ∧
      ((prepare_target (prepare_deepest fixedStash fixedBranch 16) fixedBranch).getD 3
          FLOOR_INDEX ≠ FLOOR_INDEX →
        (prepare_target (prepare_deepest fixedStash fixedBranch 16) fixedBranch).getD 3
          FLOOR_INDEX < 3)) :=
  ⟨by decide, deepest_and_target_move_directions fixedStash fixedBranch 16 (by decide) 3⟩

/-- C3: every planned move is legal and no level loses more than one block.
Whenever `target[i]` is not the sentinel, the move goes strictly toward the
leaf, `deepest[target[i]]` names `i` as the source level of the block to move,
and that block (a non-vacant block at level `i`, the level the move departs
from) may legally occupy the destination level `target[i]`; moreover, for every
level, the plan schedules at most one move leaving it. -/
theorem prepare_target_plan_legal (stash_meta : List BlockMeta)
    (branch_meta : List BucketMeta) (leaf : ℕ)
    (hm : branch_meta.length + 1 < 2 ^ 64) :
    (∀ i v,
      v = (prepare_target (prepare_deepest stash_meta branch_meta leaf) branch_meta).getD i
        FLOOR_INDEX →
      v ≠ FLOOR_INDEX →
      v < i ∧ (prepare_deepest stash_meta branch_meta leaf).getD v FLOOR_INDEX = i ∧
        ∃ blk, deepest_candidate stash_meta branch_meta leaf v i blk) ∧
    (∀ lvl, ((planned_moves
        (prepare_target (prepare_deepest stash_meta branch_meta leaf) branch_meta)).filter
          (fun p => p.1 == lvl)).length ≤ 1) := by
  constructor
  · intro i v hv hne
    have hmain := prepare_target_entries _ _ hm i v hv hne
    have him : i ≤ branch_meta.length := by
      by_contra hgt
      apply hne
      rw [hv]
      apply List.getD_eq_default
      rw [prepare_target_length]
      omega
    have hvm : v ≤ branch_meta.length := by omega
    have hchar := prepare_deepest_char stash_meta branch_meta leaf hm v hvm
      ((prepare_deepest stash_meta branch_meta leaf).getD v FLOOR_INDEX) rfl
    rw [hmain.2] at hchar
    rcases hchar with ⟨hF, _⟩ | ⟨_, _, _, blk, hcand, _⟩
    · exfalso
      have : branch_meta.length < FLOOR_INDEX := by
        rw [FLOOR_INDEX]; omega
      omega
    · exact ⟨hmain.1, hmain.2, blk, hcand⟩
  · intro lvl
    exact planned_moves_at_most_one_src _ lvl

set_option maxRecDepth 100000 in
theorem prepare_target_plan_legal_witness :
    fixedBranch.length + 1 < 2 ^ 64 ∧
    (2 < 3 ∧ (prepare_deepest fixedStash fixedBranch 16).getD 2 FLOOR_INDEX = 3 ∧
      ∃ blk, deepest_candidate fixedStash fixedBranch 16 2 3 blk) ∧
    ((planned_moves
        (prepare_target (prepare_deepest fixedStash fixedBranch 16) fixedBranch)).filter
          (fun p => p.1 == 3)).length ≤ 1 :=
  ⟨by decide,
    (prepare_target_plan_legal fixedStash fixedBranch 16 (by decide)).1 3 2 (by decide)
      (by decide),
    (prepare_target_plan_legal fixedStash fixedBranch 16 (by decide)).2 3⟩
